import Mathlib

/-!
Verification of the partial-ReiserFS reader (`reiserfs_blocks.py`,
`parse_ddrescue.py`) against its natural-language specification.

Each definition below is a shallow embedding of the corresponding Python
function; theorems at the end of the file settle the specification claims.
Bytes are modelled as `Nat` (each < 256), byte strings as `List Nat`,
machine integers as `Nat`/`Int` with explicit modular arithmetic.
Fallible code (Python `assert`, `raise`, `KeyError`) returns `Option`.
-/

namespace ReiserRescue

/-! ## parse_ddrescue.Status and RescueMap -/

/-- Status tags of a ddrescue map entry (`parse_ddrescue.Status`). -/
inductive Status where
  | NON_TRIED
  | NON_TRIMMED
  | NON_SCRAPED
  | BAD
  | FINISHED
deriving DecidableEq, Repr

/-- One entry of a rescue map: `(start, size, status)` as parsed by
`parseDdrescue`. -/
structure MapEntry where
  start : Nat
  size : Nat
  status : Status
deriving DecidableEq, Repr

/-- Leftmost insertion point of `p` among entry starts, the value computed by
`bisect.bisect_left(self._ranges, (position,))` on a list sorted by start
(a 1-tuple `(position,)` compares below every `(position, size, status)`
3-tuple, so the search is by start only). -/
def bisectLeft (l : List MapEntry) (p : Nat) : Nat :=
  match l with
  | [] => 0
  | e :: rest => if e.start < p then bisectLeft rest p + 1 else 0

/-- Second half of `RescueMap.__getitem__`: consult entry `i-1` when the
entry at the insertion point did not match exactly.  `none` models both the
`raise ValueError` at `i == 0` and the failing
`assert item[0] <= position and item[0] + item[1] > position`. -/
def rmPrev (l : List MapEntry) (p i : Nat) : Option Status :=
  if i = 0 then none
  else
    match l.get? (i - 1) with
    | some e => if e.start ≤ p ∧ p < e.start + e.size then some e.status else none
    | none => none

/-- Body of `RescueMap.__getitem__` after the offset has been added:
binary-search for the insertion point, return the status of an entry whose
start equals the position, otherwise check the preceding entry. -/
def rmLookupAt (l : List MapEntry) (p : Nat) : Option Status :=
  let i := bisectLeft l p
  match l.get? i with
  | some e => if e.start = p then some e.status else rmPrev l p i
  | none => rmPrev l p i

/-- `RescueMap.__getitem__(position)`: the stored offset is added to the
looked-up position first (`position += self.offset`). -/
def rmLookup (l : List MapEntry) (offset pos : Nat) : Option Status :=
  rmLookupAt l (pos + offset)

/-- Invariant of a well-formed rescue map anchored at byte `s`: entries are
consecutive (sorted, no gaps, no overlaps) and have positive sizes. -/
def Chained : Nat → List MapEntry → Prop
  | _, [] => True
  | s, e :: rest => e.start = s ∧ 0 < e.size ∧ Chained (s + e.size) rest

/-- End position (exclusive) of a chained rescue map anchored at `s`. -/
def chainEnd : Nat → List MapEntry → Nat
  | s, [] => s
  | _, e :: rest => chainEnd (e.start + e.size) rest

/-! ## RangeList -/

/-- A `(start, size)` record of `reiserfs_blocks.Range`. -/
structure RRange where
  start : Nat
  size : Nat
deriving DecidableEq, Repr

/-- `RangeList.add(start, size)`: if the new range starts exactly at the end
of the last record, the last record is extended; if strictly after, a new
record is appended; otherwise the `assert last.start + last.size < start`
fails (`none`).  The recursion walks to the last element of the list, which
is the element the Python code accesses as `self.items[-1]`. -/
def rangeAdd : List RRange → Nat → Nat → Option (List RRange)
  | [], start, size => some [⟨start, size⟩]
  | [last], start, size =>
      if last.start + last.size = start then some [⟨last.start, last.size + size⟩]
      else if last.start + last.size < start then some [last, ⟨start, size⟩]
      else none
  | a :: b :: rest, start, size =>
      (rangeAdd (b :: rest) start size).map (a :: ·)

/-- Sorted/disjoint/non-touching invariant of `RangeList.items`: every record
ends strictly before the next one starts. -/
def RLinv (l : List RRange) : Prop :=
  l.Pairwise fun a b => a.start + a.size < b.start

/-! ## Output map printing and the failed-mount paths of the commands -/

/-- One line of the printed output map: the `0 * 1` header, or a
`<pos> <size> <char>` line whose char is `+` when `plus = true` and `-`
otherwise. -/
inductive OutLine where
  | header
  | run (pos : Nat) (size : Nat) (plus : Bool)
deriving DecidableEq, Repr

/-- Loop body of `print_rangelist`: emit a `-` filler line before any range
that does not start at the running end, then the `+` line for the range. -/
def prElems (ps mult : Nat) : Nat → List RRange → List OutLine
  | _, [] => []
  | endAcc, r :: rest =>
      (if endAcc ≠ r.start then
          [OutLine.run (ps + endAcc * mult) ((r.start - endAcc) * mult) false]
        else []) ++
        OutLine.run (ps + r.start * mult) (r.size * mult) true ::
          prElems ps mult (r.start + r.size) rest

/-- `print_rangelist(fs, rangelist, mult)`: header line, a `-` line covering
the pre-partition prefix, then the alternating runs.  The function ends
without emitting any trailing `-` line (the source carries a FIXME about
this). -/
def print_rangelist (ps : Nat) (items : List RRange) (mult : Nat) : List OutLine :=
  OutLine.header :: OutLine.run 0 ps false :: prElems ps mult 0 items

/-- Output of `findBitmap` when `fs.init()` returns false: the map lines
printed and the stderr lines written.  The code adds the single range
`(65536, 512)` with multiplier 1 and writes nothing to stderr. -/
def findBitmapInitFailOut (ps : Nat) : List OutLine × List String :=
  (print_rangelist ps [⟨65536, 512⟩] 1, [])

/-- Output of `findFolder` when `fs.init()` returns false: identical map to
`findBitmap`, no stderr line. -/
def findFolderInitFailOut (ps : Nat) : List OutLine × List String :=
  (print_rangelist ps [⟨65536, 512⟩] 1, [])

/-- Output of `findTree` when `fs.init()` returns false: `init` has already
recorded sector `65536 // 512 = 128`, so the map holds the single range
`(128, 1)` printed with multiplier 512; no stderr line. -/
def findTreeInitFailOut (ps : Nat) : List OutLine × List String :=
  (print_rangelist ps [⟨128, 1⟩] 512, [])

/-- Output of `ls` when `fs.init()` returns false: no map lines at all, one
stderr message. -/
def lsInitFailOut : List OutLine × List String :=
  ([], ["Could not access superblock"])

/-- Output of `cat` when `fs.init()` returns false: no map lines, one stderr
message. -/
def catInitFailOut : List OutLine × List String :=
  ([], ["Could not access superblock"])

/-- Output of `find` when `fs.init()` returns false: no map lines, one
stderr message. -/
def findInitFailOut : List OutLine × List String :=
  ([], ["Could not access superblock"])

/-! ## Keys -/

/-- Item types (`reiserfs_blocks.ItemType`). -/
inductive ItemType where
  | STAT
  | INDIRECT
  | DIRECT
  | DIRECTORY
  | ANY
deriving DecidableEq, Repr

/-- Numeric value of an `ItemType` (the `IntEnum` values). -/
def ItemType.value : ItemType → Nat
  | .STAT => 0
  | .INDIRECT => 1
  | .DIRECT => 2
  | .DIRECTORY => 3
  | .ANY => 15

/-- The `ItemType.version1_type2id` dictionary. -/
def version1_type2id : ItemType → Nat
  | .STAT => 0
  | .INDIRECT => 0xFFFFFFFE
  | .DIRECT => 0xFFFFFFFF
  | .DIRECTORY => 500
  | .ANY => 555

/-- The `ItemType.version1_id2type` dictionary; `none` models the `KeyError`
on an id outside the dictionary. -/
def version1_id2type (id : Nat) : Option ItemType :=
  if id = 0 then some .STAT
  else if id = 0xFFFFFFFE then some .INDIRECT
  else if id = 0xFFFFFFFF then some .DIRECT
  else if id = 500 then some .DIRECTORY
  else if id = 555 then some .ANY
  else none

/-- The `ItemType(value)` constructor call; `none` models the `ValueError`
on a value that is not one of the enum members. -/
def mkItemType (v : Nat) : Option ItemType :=
  if v = 0 then some .STAT
  else if v = 1 then some .INDIRECT
  else if v = 2 then some .DIRECT
  else if v = 3 then some .DIRECTORY
  else if v = 15 then some .ANY
  else none

/-- A decoded key (`reiserfs_blocks.Key` named tuple). -/
structure KeyV where
  dirid : Nat
  objid : Nat
  offset : Nat
  type : ItemType
  version : Nat
deriving DecidableEq, Repr

/-- Little-endian 4-byte encoding of a `u32` (one `I` field of
`struct.Struct("<IIQ")`). -/
def le4 (n : Nat) : List Nat :=
  [n % 256, n / 256 % 256, n / 65536 % 256, n / 16777216 % 256]

/-- Little-endian 8-byte encoding of a `u64` (the `Q` field). -/
def le8 (n : Nat) : List Nat :=
  le4 (n % 4294967296) ++ le4 (n / 4294967296)

/-- Value of 4 little-endian bytes. -/
def rd4v (b0 b1 b2 b3 : Nat) : Nat :=
  b0 + 256 * b1 + 65536 * b2 + 16777216 * b3

/-- The combined offset+type word written by `Key.pack`: version-1 keys put
the dictionary id in the high 32 bits, version-2 keys put the type value in
the high 4 bits. -/
def KeyV.packWord (k : KeyV) : Nat :=
  if k.version = 1 then k.offset ||| (version1_type2id k.type <<< 32)
  else k.offset ||| (k.type.value <<< 60)

/-- `Key.pack`: the 16 bytes `struct.Struct("<IIQ").pack(dirid, objid,
offset_type)`. -/
def KeyV.pack (k : KeyV) : List Nat :=
  le4 k.dirid ++ le4 k.objid ++ le8 k.packWord

/-- `Key.unpack(b, version)`: decode 16 bytes; when `version` is `none` it is
inferred from the low 4 bits of the combined word (`0` or `15` means
version 1).  Any forced version other than 1 takes the version-2 branch,
exactly as the Python `if version == 1: ... else: ...` does. -/
def Key.unpack (b : List Nat) (version : Option Nat) : Option KeyV :=
  match b with
  | [a0, a1, a2, a3, c0, c1, c2, c3, d0, d1, d2, d3, d4, d5, d6, d7] =>
      let dirid := rd4v a0 a1 a2 a3
      let objid := rd4v c0 c1 c2 c3
      let word := rd4v d0 d1 d2 d3 + 4294967296 * rd4v d4 d5 d6 d7
      let ver :=
        match version with
        | some v => v
        | none => if word &&& 15 = 0 ∨ word &&& 15 = 15 then 1 else 2
      if ver = 1 then
        (version1_id2type (word >>> 32)).map fun t =>
          ⟨dirid, objid, word &&& 0xFFFFFFFF, t, 1⟩
      else
        (mkItemType (word >>> 60)).map fun t =>
          ⟨dirid, objid, word &&& 0x0FFFFFFFFFFFFFFF, t, 2⟩
  | _ => none

/-- Validity of a key, as the specification states it: `u32` ids, and an
offset within the width its version stores (32 bits for version 1, 60 bits
for version 2). -/
def KeyValid (k : KeyV) : Prop :=
  k.dirid < 4294967296 ∧ k.objid < 4294967296 ∧
    ((k.version = 1 ∧ k.offset < 4294967296) ∨
      (k.version = 2 ∧ k.offset < 1152921504606846976))

/-! ## Items and regular_block_list -/

/-- Values produced by the `regular_block_list` generator: either a data
block number (`ptr`, with `ptr 0` the sparse marker) or a raw byte buffer
(`buf`). -/
inductive Yield where
  | ptr (block : Nat)
  | buf (bytes : List Nat)
deriving DecidableEq, Repr

/-- Logical length in bytes of one yielded value: a block pointer stands for
`blockSize` bytes, a buffer for its own length. -/
def yieldLen (blockSize : Nat) : Yield → Nat
  | .ptr _ => blockSize
  | .buf bs => bs.length

/-- Total logical length of a yield sequence. -/
def totalYieldLen (blockSize : Nat) (ys : List Yield) : Nat :=
  ys.foldl (fun acc y => acc + yieldLen blockSize y) 0

/-- `Item.indirect_blocks`: reinterpret the body bytes as little-endian
`u32` block numbers (`array.array("I", body)`). -/
def bytesToU32s : List Nat → List Nat
  | b0 :: b1 :: b2 :: b3 :: rest => rd4v b0 b1 b2 b3 :: bytesToU32s rest
  | _ => []

/-- The parts of a leaf item that `regular_block_list` consults: the key
offset, the key type and the raw body. -/
structure RItem where
  offset : Nat
  type : ItemType
  body : List Nat
deriving DecidableEq, Repr

/-- Hole filler yielded when an item's key offset jumps past the running
size: one sparse-marker `0` per whole missing block, then one zero-filled
buffer for the sub-block remainder (only when it is non-empty). -/
def holeYields (blockSize missing : Nat) : List Yield :=
  List.replicate (missing / blockSize) (.ptr 0) ++
    (if missing % blockSize = 0 then []
      else [.buf (List.replicate (missing % blockSize) 0)])

/-- Values yielded for one item by `regular_block_list`: the decoded block
pointers of an INDIRECT item, the body of a DIRECT item, nothing otherwise. -/
def itemYields (it : RItem) : List Yield :=
  match it.type with
  | .INDIRECT => (bytesToU32s it.body).map .ptr
  | .DIRECT => [.buf it.body]
  | _ => []

/-- Amount added to the running size for one item: `len(body) // 4 *
block_size` for INDIRECT, `len(body)` for DIRECT, nothing otherwise. -/
def itemSizeAdd (blockSize : Nat) (it : RItem) : Nat :=
  match it.type with
  | .INDIRECT => it.body.length / 4 * blockSize
  | .DIRECT => it.body.length
  | _ => 0

/-- Running state of the `regular_block_list` loop: everything yielded so
far, the running `size` offset, and the reader's `incomplete` flag. -/
structure RBLState where
  yields : List Yield
  size : Nat
  incomplete : Bool
deriving DecidableEq, Repr

/-- One iteration of the `regular_block_list` loop over an item.  `none`
models the failing `assert item.key.offset >= size`; an offset beyond the
running size first emits the hole filler and sets `incomplete`. -/
def rblStep (blockSize : Nat) (st : RBLState) (it : RItem) : Option RBLState :=
  if it.offset < st.size then none
  else if st.size < it.offset then
    some ⟨st.yields ++ holeYields blockSize (it.offset - st.size) ++ itemYields it,
      it.offset + itemSizeAdd blockSize it, true⟩
  else
    some ⟨st.yields ++ itemYields it, st.size + itemSizeAdd blockSize it, st.incomplete⟩

/-- `ReiserFs.regular_block_list`, abstracted over the item stream returned
by `iter_items_in_range` and over the Stat lookup: `statSize` is
`some stat.size` when `find_item` returned the file's STAT item and `none`
when it returned `None` (in which case the sentinel `expectedSize = -1`
makes the final `size < expectedSize` comparison false).  The running size
is seeded at 1; after the scan the `incomplete` flag is also set when the
running size stayed below the expected size. -/
def regular_block_list (blockSize : Nat) (statSize : Option Nat) (items : List RItem)
    (inc0 : Bool) : Option RBLState :=
  (items.foldlM (rblStep blockSize) ⟨[], 1, inc0⟩).map fun st =>
    { st with
      incomplete :=
        st.incomplete ||
          match statSize with
          | some es => decide (st.size < es)
          | none => false }

/-- Final value of the reader's `incomplete` flag after fully consuming
`ReiserFs.directory_list`: the accumulated body sizes are compared (as
Python ints) against `stat.size`, or against the sentinel `-1` when the
directory's own STAT item could not be retrieved. -/
def directory_list_incomplete (statSize : Option Nat) (bodies : List (List Nat))
    (inc0 : Bool) : Bool :=
  let expectedSize : Int := match statSize with | some es => (es : Int) | none => -1
  let size : Int := bodies.foldl (fun acc b => acc + b.length) 0
  inc0 || decide (size ≠ expectedSize)

/-! ## cat -/

/-- Translation of one yielded value to the bytes `cat` writes: a buffer is
written as-is, block number 0 becomes a zero-filled block-size buffer
without consulting `readBlock`, any other block number is read from the
image. -/
def catChunk (readBlock : Nat → List Nat) (blockSize : Nat) : Yield → List Nat
  | .buf bs => bs
  | .ptr n => if n = 0 then List.replicate blockSize 0 else readBlock n

/-- The write loop of `cat`: each chunk is truncated so the running total
never exceeds `expectedSize`.  Returns the bytes written, the final
`currentSize`, and the outcome of the trailing
`assert expectedSize == currentSize` (false means the command dies with an
`AssertionError` after the bytes have been written). -/
def catRun (readBlock : Nat → List Nat) (blockSize expectedSize : Nat)
    (ys : List Yield) : List Nat × Nat × Bool :=
  let out := ys.foldl
    (fun (acc : List Nat × Nat) y =>
      let tw := catChunk readBlock blockSize y
      let tw := if expectedSize < acc.2 + tw.length then tw.take (expectedSize - acc.2) else tw
      (acc.1 ++ tw, acc.2 + tw.length))
    ([], 0)
  (out.1, out.2, decide (expectedSize = out.2))

/-! ## Tree and folder drivers -/

/-- Sector collection of the leaf branch of `_findTree`: every zero block
pointer is skipped, every other pointer contributes all
`sectors_per_block` sectors of its block. -/
def treeLeafSectors (spb : Nat) (itemBlocks : List Nat) : List Nat :=
  itemBlocks.foldl
    (fun acc ib =>
      if ib = 0 then acc
      else acc ++ (List.range spb).map fun off => ib * spb + off)
    []

/-- `ReiserFs.file_indirect_blocks`, abstracted over the item stream: every
block pointer of every INDIRECT item, with no filtering of zeros. -/
def fileIndirectBlocks (items : List RItem) : List Nat :=
  items.foldl
    (fun acc it =>
      if it.type = ItemType.INDIRECT then acc ++ bytesToU32s it.body else acc)
    []

/-- The data-block range collection of `findFolder`: the harvested block set
is sorted (`blocks = list(blocks); blocks.sort()`) and each block is added
to a fresh `RangeList` as `sectors_per_block` sectors.  Sorting then
deduplicating models the Python `set`. -/
def folderDataRanges (spb : Nat) (items : List RItem) : Option (List RRange) :=
  let blocks := ((fileIndirectBlocks items).insertionSort (· ≤ ·)).dedup
  blocks.foldlM (fun rl b => rangeAdd rl (b * spb) spb) []

/-! ## The two-heap tree pass (`_findTree` / `iter_leafs`) -/

/-- The data of a decoded node the pass loop consults: its level and, for
internal nodes, its child block pointers (`ptr_blocks`). -/
structure NodeM where
  level : Int
  ptrs : List Nat
deriving DecidableEq, Repr

/-- State of one pass: the current heap, the deferred next-pass list, and
the blocks popped so far (most recent first). -/
structure PassState where
  heap : List (Nat × Int)
  nextPass : List (Nat × Int)
  popped : List Nat
deriving DecidableEq, Repr

/-- The `(block, level)` tuple order used by `heapq` (lexicographic). -/
def pairLeB (a b : Nat × Int) : Bool :=
  a.1 < b.1 || (a.1 = b.1 && a.2 ≤ b.2)

/-- Minimum of a heap under the tuple order; `heapq.heappop` returns it. -/
def heapMin : List (Nat × Int) → Option (Nat × Int)
  | [] => none
  | x :: xs =>
      match heapMin xs with
      | none => some x
      | some m => some (if pairLeB x m then x else m)

/-- Pop the minimum `(block, level)` pair, returning it and the remaining
heap contents. -/
def heapPop (l : List (Nat × Int)) : Option ((Nat × Int) × List (Nat × Int)) :=
  match heapMin l with
  | none => none
  | some m => some (m, l.erase m)

/-- The child-routing loop of `_findTree` and `iter_leafs`: a child pointer
below the popped block is appended to the next-pass list, any other child
is pushed onto the current heap. -/
def procChildren (b : Nat) (lvl : Int) :
    List Nat → List (Nat × Int) → List (Nat × Int) → List (Nat × Int) × List (Nat × Int)
  | [], heap, np => (heap, np)
  | c :: cs, heap, np =>
      if c < b then procChildren b lvl cs heap (np ++ [(c, lvl)])
      else procChildren b lvl cs (heap ++ [(c, lvl)]) np

/-- One iteration of the inner `while heap:` loop of `_findTree`: pop the
minimum pair, read the node (`none` when incomplete), prune at
`level ≤ level_limit`, route children of internal nodes, and record the
popped block.  `iter_leafs` is the same loop with no pruning. -/
def passStep (readN : Nat → Option NodeM) (limit : Int) (st : PassState) :
    Option PassState :=
  match heapPop st.heap with
  | none => none
  | some ((b, _), rest) =>
      match readN b with
      | none => some ⟨rest, st.nextPass, b :: st.popped⟩
      | some node =>
          if node.level ≤ limit then some ⟨rest, st.nextPass, b :: st.popped⟩
          else if 1 < node.level then
            let hn := procChildren b (node.level - 1) node.ptrs rest st.nextPass
            some ⟨hn.1, hn.2, b :: st.popped⟩
          else some ⟨rest, st.nextPass, b :: st.popped⟩

/-- Run one pass for at most `fuel` iterations (the loop ends when the heap
empties). -/
def runPass (readN : Nat → Option NodeM) (limit : Int) : Nat → PassState → PassState
  | 0, st => st
  | fuel + 1, st =>
      match passStep readN limit st with
      | none => st
      | some st' => runPass readN limit fuel st'

end ReiserRescue

namespace ReiserRescue

/-! ## Helper lemmas -/

/-- A fold accumulating body lengths never leaves the nonnegative integers. -/
theorem bodies_foldl_nonneg (bodies : List (List Nat)) :
    ∀ acc : Int, 0 ≤ acc → 0 ≤ bodies.foldl (fun a b => a + (b.length : Int)) acc := by
  induction bodies with
  | nil => intro acc h; simpa using h
  | cons b rest ih =>
      intro acc h
      exact ih (acc + b.length) (by positivity)

/-! ## C10 -/

/-- C10: when `find_item` cannot retrieve the directory's own STAT item, the
`expectedSize` sentinel stays `-1`, which the accumulated (nonnegative) body
size can never equal, so fully consuming `directory_list` always leaves the
reader's `incomplete` flag set — for every item stream and every initial
flag value. -/
theorem c10_directory_list_incomplete_on_missing_stat
    (bodies : List (List Nat)) (inc0 : Bool) :
    directory_list_incomplete none bodies inc0 = true := by
  unfold directory_list_incomplete
  have h0 : (0 : Int) ≤ bodies.foldl (fun a b => a + (b.length : Int)) 0 :=
    bodies_foldl_nonneg bodies 0 le_rfl
  have hne : bodies.foldl (fun a b => a + (b.length : Int)) 0 ≠ (-1 : Int) := by
    intro h
    rw [h] at h0
    omega
  simp [hne]

end ReiserRescue

namespace ReiserRescue

/-! ## C2 -/

/-- C2 counterexample: with the superblock sector unreadable, `cat`, `find`
and `ls` emit no output map at all; the map the map-emitting commands do
print ends with the `+ 65536 512` line (no trailing `-` run to end-of-map);
and neither `tree` nor `bitmap` writes any stderr message mentioning the
superblock. -/
theorem c2_counterexample :
    catInitFailOut.1 = [] ∧ findInitFailOut.1 = [] ∧ lsInitFailOut.1 = [] ∧
    (findBitmapInitFailOut 0).1.getLast? = some (OutLine.run 65536 512 true) ∧
    (findTreeInitFailOut 0).2 = [] ∧ (findBitmapInitFailOut 0).2 = [] := by
  refine ⟨rfl, rfl, rfl, ?_, rfl, rfl⟩
  rfl

/-- C2 amended: when the superblock sector's rescue status is not finished,
the three map-emitting commands (`bitmap`, `folder`, `tree`) emit the header
`0 * 1`, a `-` line for the pre-partition prefix, a `-` run covering
`[partition_start, partition_start + 65536)` and `+ partition_start + 65536
512`, with no trailing `-` run and no stderr message; `ls`, `cat` and `find`
emit no map lines and write a message mentioning the superblock to stderr. -/
theorem c2_amended_init_failure_outputs (ps : Nat) :
    findBitmapInitFailOut ps =
      ([.header, .run 0 ps false, .run ps 65536 false, .run (ps + 65536) 512 true], []) ∧
    findFolderInitFailOut ps =
      ([.header, .run 0 ps false, .run ps 65536 false, .run (ps + 65536) 512 true], []) ∧
    findTreeInitFailOut ps =
      ([.header, .run 0 ps false, .run ps 65536 false, .run (ps + 65536) 512 true], []) ∧
    lsInitFailOut = ([], ["Could not access superblock"]) ∧
    catInitFailOut = ([], ["Could not access superblock"]) ∧
    findInitFailOut = ([], ["Could not access superblock"]) := by
  refine ⟨?_, ?_, ?_, rfl, rfl, rfl⟩ <;>
    simp [findBitmapInitFailOut, findFolderInitFailOut, findTreeInitFailOut,
      print_rangelist, prElems]

/-! ## C4 -/

/-- C4: for a regular file whose Stat reports size 10 with a single 7-byte
DIRECT item at key offset 1, `regular_block_list` yields only the 7-byte
buffer and sets `incomplete` (that part of the claim holds), and `cat`
writes exactly 7 bytes but then fails its trailing
`assert expectedSize == currentSize` (10 ≠ 7) instead of completing — for
any `readBlock`, which is never consulted. -/
theorem c4_cat_assert_failure :
    regular_block_list 4096 (some 10) [⟨1, .DIRECT, List.replicate 7 97⟩] false =
      some ⟨[.buf (List.replicate 7 97)], 8, true⟩ ∧
    ∀ readBlock : Nat → List Nat,
      (catRun readBlock 4096 10 [.buf (List.replicate 7 97)]).1.length = 7 ∧
      (catRun readBlock 4096 10 [.buf (List.replicate 7 97)]).2.2 = false := by
  exact ⟨rfl, fun readBlock => ⟨rfl, rfl⟩⟩

/-! ## C1 counterexample -/

/-- C1 counterexample: a regular file with one INDIRECT item whose body
holds the block pointers `[0, 5]` (a hole followed by a data block).  With
`sectors_per_block = 8`, `findFolder` adds the range `(0, 8)` for the zero
pointer — the hole IS emitted as a recovery range by the folder driver,
because `file_indirect_blocks` does not filter zero pointers. -/
theorem c1_counterexample :
    folderDataRanges 8 [⟨1, .INDIRECT, [0, 0, 0, 0, 5, 0, 0, 0]⟩] =
      some [⟨0, 8⟩, ⟨40, 8⟩] ∧
    (⟨0, 8⟩ : RRange) ∈
      (folderDataRanges 8 [⟨1, .INDIRECT, [0, 0, 0, 0, 5, 0, 0, 0]⟩]).getD [] := by
  refine ⟨?_, ?_⟩ <;> decide

end ReiserRescue

namespace ReiserRescue

/-- The leaf-sector fold of `_findTree` ignores zero block pointers: folding
over a pointer list equals folding over the list with zeros removed. -/
theorem treeLeafFoldl_filter_zero (spb : Nat) (blocks : List Nat) :
    ∀ acc : List Nat,
      blocks.foldl
          (fun acc ib =>
            if ib = 0 then acc
            else acc ++ (List.range spb).map fun off => ib * spb + off) acc =
        (blocks.filter fun b => decide (b ≠ 0)).foldl
          (fun acc ib =>
            if ib = 0 then acc
            else acc ++ (List.range spb).map fun off => ib * spb + off) acc := by
  induction blocks with
  | nil => intro acc; rfl
  | cons ib rest ih =>
      intro acc
      by_cases h : ib = 0
      · subst h
        rw [List.foldl_cons, if_pos rfl, List.filter_cons_of_neg (by simp)]
        exact ih acc
      · rw [List.foldl_cons, if_neg h, List.filter_cons_of_pos (by simp [h]),
          List.foldl_cons, if_neg h]
        exact ih _

/-- Successful `rangeAdd` on a nonempty list keeps the start of the first
record: only the last record is ever modified, and new records go to the
end. -/
theorem rangeAdd_head_start (a : RRange) :
    ∀ (t : List RRange) (s n : Nat) (l' : List RRange),
      rangeAdd (a :: t) s n = some l' →
      ∃ sz t', l' = RRange.mk a.start sz :: t' := by
  intro t
  induction t generalizing a with
  | nil =>
      intro s n l' h
      unfold rangeAdd at h
      by_cases h1 : a.start + a.size = s
      · simp [h1] at h
        exact ⟨a.size + n, [], h.symm⟩
      · by_cases h2 : a.start + a.size < s
        · simp [h1, h2] at h
          exact ⟨a.size, [⟨s, n⟩], h.symm⟩
        · simp [h1, h2] at h
  | cons b rest ih =>
      intro s n l' h
      unfold rangeAdd at h
      cases hm : rangeAdd (b :: rest) s n with
      | none => rw [hm] at h; simp at h
      | some m =>
          rw [hm] at h
          simp only [Option.map_some', Option.some_inj] at h
          exact ⟨a.size, m, h.symm⟩

/-- Folding further `rangeAdd` calls over a list whose first record starts
at 0 keeps a first record starting at 0. -/
theorem foldlM_rangeAdd_head_zero (spb : Nat) :
    ∀ (bs : List Nat) (sz : Nat) (t out : List RRange),
      bs.foldlM (fun rl b => rangeAdd rl (b * spb) spb) (RRange.mk 0 sz :: t) =
          some out →
      ∃ sz' t', out = RRange.mk 0 sz' :: t' := by
  intro bs
  induction bs with
  | nil =>
      intro sz t out h
      simp only [List.foldlM_nil, Option.pure_def, Option.some_inj] at h
      exact ⟨sz, t, h.symm⟩
  | cons b rest ih =>
      intro sz t out h
      simp only [List.foldlM_cons, Option.bind_eq_bind, Option.bind_eq_some] at h
      obtain ⟨m, hadd, h⟩ := h
      obtain ⟨sz', t', hm⟩ := rangeAdd_head_start _ _ _ _ _ hadd
      subst hm
      exact ih sz' t' out h

/-- A sorted list of naturals that contains 0 starts with 0. -/
theorem sorted_mem_zero_head {l : List Nat} (hs : l.Sorted (· ≤ ·)) (h0 : 0 ∈ l) :
    ∃ rest, l = 0 :: rest := by
  cases l with
  | nil => cases h0
  | cons h t =>
      rcases List.mem_cons.mp h0 with h0 | h0
      · exact ⟨t, by rw [← h0]⟩
      · have hle : h ≤ 0 := (List.sorted_cons.mp hs).1 0 h0
        have hz : h = 0 := Nat.le_zero.mp hle
        exact ⟨t, by rw [hz]⟩

/-- C1 amended: a zero block pointer in an INDIRECT item body is skipped by
the tree driver's leaf scan and `cat` substitutes a zero-filled block-size
buffer for it without calling `readBlock`; however the folder driver does
NOT treat it as a hole: whenever a zero pointer occurs in the harvested
blocks, the `findFolder` range list begins with a range starting at sector
0, emitting block 0 as a recovery range. -/
theorem c1_zero_pointer_handling (spb : Nat) :
    (∀ blocks, treeLeafSectors spb blocks =
        treeLeafSectors spb (blocks.filter fun b => decide (b ≠ 0))) ∧
    (∀ (readBlock : Nat → List Nat) (blockSize : Nat),
        catChunk readBlock blockSize (.ptr 0) = List.replicate blockSize 0) ∧
    (∀ (items : List RItem) (rl : List RRange),
        0 ∈ fileIndirectBlocks items →
        folderDataRanges spb items = some rl →
        ∃ sz t, rl = RRange.mk 0 sz :: t) := by
  refine ⟨fun blocks => treeLeafFoldl_filter_zero spb blocks [], fun _ _ => rfl, ?_⟩
  intro items rl h0 hfold
  unfold folderDataRanges at hfold
  set blocks := ((fileIndirectBlocks items).insertionSort (· ≤ ·)).dedup with hb
  have hsorted : blocks.Sorted (· ≤ ·) :=
    ((fileIndirectBlocks items).sorted_insertionSort (· ≤ ·)).sublist
      (List.dedup_sublist _)
  have hmem : 0 ∈ blocks := by
    rw [hb, List.mem_dedup]
    exact ((fileIndirectBlocks items).perm_insertionSort (· ≤ ·)).symm.subset h0
  obtain ⟨rest, hrest⟩ := sorted_mem_zero_head hsorted hmem
  rw [hrest] at hfold
  simp only [List.foldlM_cons] at hfold
  have hfirst : rangeAdd [] (0 * spb) spb = some [⟨0, spb⟩] := by
    rw [Nat.zero_mul]
    rfl
  rw [hfirst] at hfold
  simp only [Option.bind_eq_bind, Option.some_bind] at hfold
  exact foldlM_rangeAdd_head_zero spb rest spb [] rl hfold

/-- C1 amended witness: evaluated at the concrete INDIRECT body `[0, 5]`
with 8 sectors per block. -/
theorem c1_zero_pointer_handling_witness :
    0 ∈ fileIndirectBlocks [⟨1, .INDIRECT, [0, 0, 0, 0, 5, 0, 0, 0]⟩] ∧
    ∃ sz t, [RRange.mk 0 8, ⟨40, 8⟩] = RRange.mk 0 sz :: t :=
  ⟨by decide,
    (c1_zero_pointer_handling 8).2.2 [⟨1, .INDIRECT, [0, 0, 0, 0, 5, 0, 0, 0]⟩]
      [⟨0, 8⟩, ⟨40, 8⟩] (by decide) (by decide)⟩

end ReiserRescue

namespace ReiserRescue

/-- Folding length additions from any accumulator splits off the
accumulator. -/
theorem totalYieldLen_foldl (blockSize : Nat) :
    ∀ (ys : List Yield) (acc : Nat),
      ys.foldl (fun a y => a + yieldLen blockSize y) acc =
        acc + ys.foldl (fun a y => a + yieldLen blockSize y) 0 := by
  intro ys
  induction ys with
  | nil => intro acc; simp
  | cons y t ih =>
      intro acc
      simp only [List.foldl_cons]
      rw [ih (acc + yieldLen blockSize y), ih (0 + yieldLen blockSize y)]
      omega

/-- Total logical length distributes over append. -/
theorem totalYieldLen_append (blockSize : Nat) (a b : List Yield) :
    totalYieldLen blockSize (a ++ b) =
      totalYieldLen blockSize a + totalYieldLen blockSize b := by
  unfold totalYieldLen
  rw [List.foldl_append]
  exact totalYieldLen_foldl blockSize b _

/-- Total logical length of a cons. -/
theorem totalYieldLen_cons (blockSize : Nat) (y : Yield) (t : List Yield) :
    totalYieldLen blockSize (y :: t) =
      yieldLen blockSize y + totalYieldLen blockSize t := by
  unfold totalYieldLen
  rw [List.foldl_cons, totalYieldLen_foldl]
  omega

/-- A run of sparse markers accounts for one block size each. -/
theorem totalYieldLen_replicate_ptr (blockSize : Nat) :
    ∀ n, totalYieldLen blockSize (List.replicate n (.ptr 0)) = n * blockSize := by
  intro n
  induction n with
  | zero => simp [totalYieldLen]
  | succ n ih =>
      rw [List.replicate_succ, totalYieldLen_cons, ih]
      show blockSize + n * blockSize = (n + 1) * blockSize
      ring

/-- The hole filler accounts for exactly the missing bytes. -/
theorem totalYieldLen_holeYields (blockSize missing : Nat) :
    totalYieldLen blockSize (holeYields blockSize missing) = missing := by
  unfold holeYields
  rw [totalYieldLen_append, totalYieldLen_replicate_ptr]
  have hdm : blockSize * (missing / blockSize) + missing % blockSize = missing :=
    Nat.div_add_mod missing blockSize
  have hcm : missing / blockSize * blockSize = blockSize * (missing / blockSize) :=
    Nat.mul_comm _ _
  by_cases h : missing % blockSize = 0
  · rw [if_pos h]
    have hz : totalYieldLen blockSize ([] : List Yield) = 0 := rfl
    rw [hz]
    omega
  · rw [if_neg h, totalYieldLen_cons]
    have hz : totalYieldLen blockSize ([] : List Yield) = 0 := rfl
    rw [hz]
    show missing / blockSize * blockSize +
        ((List.replicate (missing % blockSize) 0).length + 0) = missing
    rw [List.length_replicate]
    omega

/-- Number of u32 words decoded from a byte string. -/
theorem bytesToU32s_length : ∀ l : List Nat, (bytesToU32s l).length = l.length / 4
  | [] => by simp [bytesToU32s]
  | [a] => by simp [bytesToU32s]
  | [a, b] => by simp [bytesToU32s]
  | [a, b, c] => by simp [bytesToU32s]
  | b0 :: b1 :: b2 :: b3 :: rest => by
      simp only [bytesToU32s, List.length_cons, bytesToU32s_length rest]
      omega

/-- Mapping block numbers to pointer yields accounts for one block size
each. -/
theorem totalYieldLen_map_ptr (blockSize : Nat) :
    ∀ xs : List Nat,
      totalYieldLen blockSize (xs.map .ptr) = xs.length * blockSize := by
  intro xs
  induction xs with
  | nil => simp [totalYieldLen]
  | cons x t ih =>
      rw [List.map_cons, totalYieldLen_cons, ih]
      show blockSize + t.length * blockSize = (t.length + 1) * blockSize
      ring

/-- The values yielded for one item account for exactly the running-size
increment of that item. -/
theorem totalYieldLen_itemYields (blockSize : Nat) (it : RItem) :
    totalYieldLen blockSize (itemYields it) = itemSizeAdd blockSize it := by
  unfold itemYields itemSizeAdd
  cases it.type with
  | INDIRECT => rw [totalYieldLen_map_ptr, bytesToU32s_length]
  | DIRECT => rw [totalYieldLen_cons]; simp [yieldLen, totalYieldLen]
  | STAT => rfl
  | DIRECTORY => rfl
  | ANY => rfl

/-- One `regular_block_list` step preserves the accounting identity between
the running size and the total logical length yielded. -/
theorem rblStep_size_accounting (blockSize : Nat) (st : RBLState) (it : RItem)
    (st' : RBLState) (h : rblStep blockSize st it = some st') :
    totalYieldLen blockSize st.yields + st'.size =
      totalYieldLen blockSize st'.yields + st.size := by
  unfold rblStep at h
  by_cases h1 : it.offset < st.size
  · rw [if_pos h1] at h; cases h
  · rw [if_neg h1] at h
    by_cases h2 : st.size < it.offset
    · rw [if_pos h2] at h
      cases h
      simp only [totalYieldLen_append, totalYieldLen_holeYields,
        totalYieldLen_itemYields]
      omega
    · rw [if_neg h2] at h
      cases h
      simp only [totalYieldLen_append, totalYieldLen_itemYields]
      omega

/-- The accounting identity holds across the whole item scan. -/
theorem rbl_fold_size_accounting (blockSize : Nat) :
    ∀ (items : List RItem) (st0 st : RBLState),
      items.foldlM (rblStep blockSize) st0 = some st →
      totalYieldLen blockSize st0.yields + st.size =
        totalYieldLen blockSize st.yields + st0.size := by
  intro items
  induction items with
  | nil =>
      intro st0 st h
      simp only [List.foldlM_nil, Option.pure_def, Option.some_inj] at h
      rw [h]
  | cons it rest ih =>
      intro st0 st h
      simp only [List.foldlM_cons, Option.bind_eq_bind, Option.bind_eq_some] at h
      obtain ⟨m, hstep, h⟩ := h
      have h1 := rblStep_size_accounting blockSize st0 it m hstep
      have h2 := ih m st h
      omega

/-- C3 amended: (a) an item whose key offset exceeds the running size makes
`regular_block_list` yield one sparse-marker zero per whole missing block
plus a zero-filled buffer for the sub-block tail and sets `incomplete`;
(b) if after the scan the running size is below the Stat-reported size the
flag is set; (c) whenever `incomplete` is false at the end, the total
logical length yielded is at least `Stat.size - 1` — not necessarily equal
to `Stat.size`: the running size is seeded at 1, so the final
`size < expectedSize` check misses a file short by exactly one byte. -/
theorem c3_regular_block_list (blockSize : Nat) :
    (∀ (st : RBLState) (it : RItem) (st' : RBLState),
        st.size < it.offset → rblStep blockSize st it = some st' →
        st'.incomplete = true ∧
          st'.yields =
            st.yields ++ holeYields blockSize (it.offset - st.size) ++ itemYields it) ∧
    (∀ (statSize : Nat) (items : List RItem) (inc0 : Bool) (st : RBLState),
        regular_block_list blockSize (some statSize) items inc0 = some st →
        st.size < statSize → st.incomplete = true) ∧
    (∀ (statSize : Nat) (items : List RItem) (inc0 : Bool) (st : RBLState),
        regular_block_list blockSize (some statSize) items inc0 = some st →
        st.incomplete = false → statSize ≤ 1 + totalYieldLen blockSize st.yields) := by
  refine ⟨?_, ?_, ?_⟩
  · intro st it st' hgap hstep
    unfold rblStep at hstep
    rw [if_neg (by omega), if_pos hgap] at hstep
    cases hstep
    exact ⟨rfl, rfl⟩
  · intro statSize items inc0 st h hlt
    unfold regular_block_list at h
    simp only [Option.map_eq_some'] at h
    obtain ⟨inner, hfold, hst⟩ := h
    subst hst
    simp only at hlt ⊢
    rw [decide_eq_true hlt]
    simp
  · intro statSize items inc0 st h hinc
    unfold regular_block_list at h
    simp only [Option.map_eq_some'] at h
    obtain ⟨inner, hfold, hst⟩ := h
    subst hst
    simp only at hinc ⊢
    have hacc := rbl_fold_size_accounting blockSize items ⟨[], 1, inc0⟩ inner hfold
    have hz : totalYieldLen blockSize ([] : List Yield) = 0 := rfl
    rw [hz] at hacc
    have hs : (RBLState.mk [] 1 inc0).size = 1 := rfl
    rw [hs] at hacc
    have hns : ¬ inner.size < statSize := by
      intro hlt
      rw [decide_eq_true hlt] at hinc
      simp at hinc
    omega

/-- C3 amended witness: the gap-handling clause evaluated at a concrete
state and item — one byte missing before a DIRECT item at offset 2. -/
theorem c3_regular_block_list_witness :
    (RBLState.mk [] 1 false).size < (RItem.mk 2 .DIRECT [7]).offset ∧
    (RBLState.mk [.buf [0], .buf [7]] 3 true).incomplete = true ∧
    (RBLState.mk [.buf [0], .buf [7]] 3 true).yields =
      (RBLState.mk [] 1 false).yields ++ holeYields 4096 (2 - 1) ++
        itemYields ⟨2, .DIRECT, [7]⟩ :=
  ⟨by decide,
    (c3_regular_block_list 4096).1 ⟨[], 1, false⟩ ⟨2, .DIRECT, [7]⟩
      ⟨[.buf [0], .buf [7]], 3, true⟩ (by decide) (by decide)⟩

/-- C3 counterexample: a regular file whose Stat reports size 10 with a
single 9-byte DIRECT item at offset 1.  The scan ends with running size 10,
the final `size < expectedSize` check fails to fire, so `incomplete` stays
false although the total logical length yielded is 9, not 10. -/
theorem c3_counterexample :
    (regular_block_list 4096 (some 10) [⟨1, .DIRECT, List.replicate 9 97⟩] false).map
        (fun st => (st.incomplete, totalYieldLen 4096 st.yields)) =
      some (false, 9) := by
  decide

end ReiserRescue

namespace ReiserRescue

/-- Extension case of `rangeAdd`: when the new start equals the end of the
last record, that record is extended in place. -/
theorem rangeAdd_extend :
    ∀ (l : List RRange) (last : RRange) (s n : Nat),
      l.getLast? = some last → last.start + last.size = s →
      rangeAdd l s n = some (l.dropLast ++ [⟨last.start, last.size + n⟩])
  | [], last, s, n => by simp
  | [a], last, s, n => by
      intro hl hs
      simp only [List.getLast?_singleton, Option.some_inj] at hl
      subst hl
      unfold rangeAdd
      rw [if_pos hs]
      rfl
  | a :: b :: t, last, s, n => by
      intro hl hs
      have hl' : (b :: t).getLast? = some last := by
        rwa [List.getLast?_cons_cons] at hl
      unfold rangeAdd
      rw [rangeAdd_extend (b :: t) last s n hl' hs]
      rfl

/-- Append case of `rangeAdd`: when the new start lies strictly past the end
of the last record, a fresh record is appended. -/
theorem rangeAdd_append :
    ∀ (l : List RRange) (last : RRange) (s n : Nat),
      l.getLast? = some last → last.start + last.size < s →
      rangeAdd l s n = some (l ++ [⟨s, n⟩])
  | [], last, s, n => by simp
  | [a], last, s, n => by
      intro hl hs
      simp only [List.getLast?_singleton, Option.some_inj] at hl
      subst hl
      unfold rangeAdd
      rw [if_neg (by omega), if_pos hs]
      rfl
  | a :: b :: t, last, s, n => by
      intro hl hs
      have hl' : (b :: t).getLast? = some last := by
        rwa [List.getLast?_cons_cons] at hl
      unfold rangeAdd
      rw [rangeAdd_append (b :: t) last s n hl' hs]
      rfl

/-- Failure case of `rangeAdd`: a new start before the end of the last
record fails the `assert`. -/
theorem rangeAdd_fail :
    ∀ (l : List RRange) (last : RRange) (s n : Nat),
      l.getLast? = some last → s < last.start + last.size →
      rangeAdd l s n = none
  | [], last, s, n => by simp
  | [a], last, s, n => by
      intro hl hs
      simp only [List.getLast?_singleton, Option.some_inj] at hl
      subst hl
      unfold rangeAdd
      rw [if_neg (by omega), if_neg (by omega)]
  | a :: b :: t, last, s, n => by
      intro hl hs
      have hl' : (b :: t).getLast? = some last := by
        rwa [List.getLast?_cons_cons] at hl
      unfold rangeAdd
      rw [rangeAdd_fail (b :: t) last s n hl' hs]
      rfl

/-- A successful `rangeAdd` implies the new start is at or past the end of
the last record. -/
theorem rangeAdd_last_le :
    ∀ (l : List RRange) (last : RRange) (s n : Nat) (l' : List RRange),
      l.getLast? = some last → rangeAdd l s n = some l' →
      last.start + last.size ≤ s := by
  intro l last s n l' hl hadd
  by_contra hlt
  rw [rangeAdd_fail l last s n hl (by omega)] at hadd
  cases hadd

/-- Every record of a successful `rangeAdd` result either keeps the start
of an original record or starts at the added position. -/
theorem rangeAdd_mem_start :
    ∀ (l : List RRange) (s n : Nat) (l' : List RRange) (x : RRange),
      rangeAdd l s n = some l' → x ∈ l' →
      (∃ y ∈ l, y.start = x.start) ∨ x.start = s
  | [], s, n, l', x => by
      intro hadd hx
      simp only [rangeAdd, Option.some_inj] at hadd
      subst hadd
      simp only [List.mem_singleton] at hx
      subst hx
      exact Or.inr rfl
  | [a], s, n, l', x => by
      intro hadd hx
      unfold rangeAdd at hadd
      by_cases h1 : a.start + a.size = s
      · rw [if_pos h1] at hadd
        cases hadd
        simp only [List.mem_singleton] at hx
        subst hx
        exact Or.inl ⟨a, List.mem_singleton_self a, rfl⟩
      · rw [if_neg h1] at hadd
        by_cases h2 : a.start + a.size < s
        · rw [if_pos h2] at hadd
          cases hadd
          rcases List.mem_cons.mp hx with hx | hx
          · exact Or.inl ⟨a, List.mem_singleton_self a, by rw [hx]⟩
          · simp only [List.mem_singleton] at hx
            subst hx
            exact Or.inr rfl
        · rw [if_neg h2] at hadd
          cases hadd
  | a :: b :: t, s, n, l', x => by
      intro hadd hx
      unfold rangeAdd at hadd
      cases hm : rangeAdd (b :: t) s n with
      | none => rw [hm] at hadd; cases hadd
      | some m =>
          rw [hm] at hadd
          simp only [Option.map_some', Option.some_inj] at hadd
          subst hadd
          rcases List.mem_cons.mp hx with hx | hx
          · exact Or.inl ⟨a, List.mem_cons_self a _, by rw [hx]⟩
          · rcases rangeAdd_mem_start (b :: t) s n m x hm hx with ⟨y, hy, hys⟩ | hxs
            · exact Or.inl ⟨y, List.mem_cons_of_mem a hy, hys⟩
            · exact Or.inr hxs

/-- Successful `rangeAdd` preserves the sorted/disjoint/non-touching
invariant. -/
theorem rangeAdd_inv :
    ∀ (l : List RRange) (s n : Nat) (l' : List RRange),
      RLinv l → rangeAdd l s n = some l' → RLinv l'
  | [], s, n, l' => by
      intro _ hadd
      simp only [rangeAdd, Option.some_inj] at hadd
      subst hadd
      exact List.pairwise_singleton _ _
  | [a], s, n, l' => by
      intro _ hadd
      unfold rangeAdd at hadd
      by_cases h1 : a.start + a.size = s
      · rw [if_pos h1] at hadd
        cases hadd
        exact List.pairwise_singleton _ _
      · rw [if_neg h1] at hadd
        by_cases h2 : a.start + a.size < s
        · rw [if_pos h2] at hadd
          cases hadd
          exact List.pairwise_cons.mpr
            ⟨fun x hx => by
              simp only [List.mem_singleton] at hx
              subst hx
              exact h2, List.pairwise_singleton _ _⟩
        · rw [if_neg h2] at hadd
          cases hadd
  | a :: b :: t, s, n, l' => by
      intro hinv hadd
      unfold rangeAdd at hadd
      cases hm : rangeAdd (b :: t) s n with
      | none => rw [hm] at hadd; cases hadd
      | some m =>
          rw [hm] at hadd
          simp only [Option.map_some', Option.some_inj] at hadd
          subst hadd
          have hinv' := List.pairwise_cons.mp hinv
          refine List.pairwise_cons.mpr ⟨?_, rangeAdd_inv (b :: t) s n m hinv'.2 hm⟩
          intro x hx
          rcases rangeAdd_mem_start (b :: t) s n m x hm hx with ⟨y, hy, hys⟩ | hxs
          · rw [← hys]
            exact hinv'.1 y hy
          · rw [hxs]
            have hgl : (b :: t).getLast? = some ((b :: t).getLast (by simp)) :=
              List.getLast?_eq_getLast _ _
            have hle := rangeAdd_last_le (b :: t) _ s n m hgl hm
            have hmem := List.getLast_mem (l := b :: t) (by simp)
            have := hinv'.1 _ hmem
            omega

/-- C7: in a preorder-respecting sequence of `add` calls, `RangeList.add`
extends the last record when the new start equals its end, appends when
strictly past it, and fails the assert otherwise; and every successful call
preserves the invariant that the records are sorted by start, pairwise
disjoint, and never adjacent with `a.start + a.size = b.start`. -/
theorem c7_rangelist_add :
    (∀ (l : List RRange) (s n : Nat) (l' : List RRange),
        RLinv l → rangeAdd l s n = some l' → RLinv l') ∧
    (∀ (l : List RRange) (last : RRange) (s n : Nat),
        l.getLast? = some last →
        (last.start + last.size = s →
            rangeAdd l s n = some (l.dropLast ++ [⟨last.start, last.size + n⟩])) ∧
          (last.start + last.size < s → rangeAdd l s n = some (l ++ [⟨s, n⟩])) ∧
          (s < last.start + last.size → rangeAdd l s n = none)) ∧
    (∀ s n : Nat, rangeAdd [] s n = some [⟨s, n⟩]) :=
  ⟨rangeAdd_inv,
    fun l last s n hl =>
      ⟨rangeAdd_extend l last s n hl, rangeAdd_append l last s n hl,
        rangeAdd_fail l last s n hl⟩,
    fun _ _ => rfl⟩

/-- C7 witness: the invariant-preservation clause applied to the concrete
call `add(5, 1)` on the singleton list `[(0, 2)]`. -/
theorem c7_rangelist_add_witness :
    RLinv [RRange.mk 0 2, ⟨5, 1⟩] :=
  c7_rangelist_add.1 [⟨0, 2⟩] 5 1 [⟨0, 2⟩, ⟨5, 1⟩]
    (by simp [RLinv]) (by decide)

end ReiserRescue

namespace ReiserRescue

/-- Every version-1 type id fits in 32 bits. -/
theorem type2id_lt (t : ItemType) : version1_type2id t < 4294967296 := by
  cases t <;> norm_num [version1_type2id]

/-- The version-1 dictionaries are mutually inverse. -/
theorem id2type_type2id (t : ItemType) :
    version1_id2type (version1_type2id t) = some t := by
  cases t <;> rfl

/-- Reconstructing an `ItemType` from its numeric value succeeds. -/
theorem mkItemType_value (t : ItemType) : mkItemType t.value = some t := by
  cases t <;> rfl

/-- Every type value fits in 4 bits. -/
theorem itemTypeValue_le (t : ItemType) : ItemType.value t ≤ 15 := by
  cases t <;> norm_num [ItemType.value]

/-- Bitwise or of a small value with a shifted value is plain addition. -/
theorem lor_shift_eq_add (a b n : Nat) (h : a < 2 ^ n) :
    a ||| (b <<< n) = a + b * 2 ^ n := by
  rw [Nat.shiftLeft_eq]
  calc a ||| b * 2 ^ n = 2 ^ n * b ||| a := by rw [Nat.lor_comm, Nat.mul_comm]
    _ = 2 ^ n * b + a := (Nat.mul_add_lt_is_or h b).symm
    _ = a + b * 2 ^ n := by ring

/-- Specialization of `lor_shift_eq_add` to a 32-bit shift. -/
theorem lor_shift32 (a b : Nat) (h : a < 4294967296) :
    a ||| (b <<< 32) = a + b * 4294967296 := by
  have h2 : (2 : Nat) ^ 32 = 4294967296 := by norm_num
  have hres := lor_shift_eq_add a b 32 (by rw [h2]; exact h)
  rwa [h2] at hres

/-- Specialization of `lor_shift_eq_add` to a 60-bit shift. -/
theorem lor_shift60 (a b : Nat) (h : a < 1152921504606846976) :
    a ||| (b <<< 60) = a + b * 1152921504606846976 := by
  have h2 : (2 : Nat) ^ 60 = 1152921504606846976 := by norm_num
  have hres := lor_shift_eq_add a b 60 (by rw [h2]; exact h)
  rwa [h2] at hres

/-- Masking with `0xFFFFFFFF` is reduction modulo `2^32`. -/
theorem and_mask32 (w : Nat) : w &&& 0xFFFFFFFF = w % 4294967296 := by
  have h := Nat.and_pow_two_sub_one_eq_mod w 32
  norm_num at h
  exact h

/-- Masking with `0x0FFFFFFFFFFFFFFF` is reduction modulo `2^60`. -/
theorem and_mask60 (w : Nat) :
    w &&& 0x0FFFFFFFFFFFFFFF = w % 1152921504606846976 := by
  have h := Nat.and_pow_two_sub_one_eq_mod w 60
  norm_num at h
  exact h

/-- Masking with `15` is reduction modulo 16. -/
theorem and_mask4 (w : Nat) : w &&& 15 = w % 16 := by
  have h := Nat.and_pow_two_sub_one_eq_mod w 4
  norm_num at h
  exact h

/-- A 32-bit right shift is division by `2^32`. -/
theorem shr32 (w : Nat) : w >>> 32 = w / 4294967296 := by
  have h := Nat.shiftRight_eq_div_pow w 32
  norm_num at h
  exact h

/-- A 60-bit right shift is division by `2^60`. -/
theorem shr60 (w : Nat) : w >>> 60 = w / 1152921504606846976 := by
  have h := Nat.shiftRight_eq_div_pow w 60
  norm_num at h
  exact h

/-- The version-1 combined word is the offset plus the shifted type id. -/
theorem packWord_v1 (k : KeyV) (hv : k.version = 1) (ho : k.offset < 4294967296) :
    k.packWord = k.offset + version1_type2id k.type * 4294967296 := by
  unfold KeyV.packWord
  rw [if_pos hv]
  exact lor_shift32 _ _ ho

/-- The version-2 combined word is the offset plus the shifted type value. -/
theorem packWord_v2 (k : KeyV) (hv : k.version = 2)
    (ho : k.offset < 1152921504606846976) :
    k.packWord = k.offset + k.type.value * 1152921504606846976 := by
  unfold KeyV.packWord
  rw [if_neg (by rw [hv]; omega)]
  exact lor_shift60 _ _ ho

/-- Reading back the four little-endian digits recovers the value modulo
`2^32`. -/
theorem rd4v_le4 (n : Nat) :
    rd4v (n % 256) (n / 256 % 256) (n / 65536 % 256) (n / 16777216 % 256) =
      n % 4294967296 := by
  unfold rd4v
  omega

/-- Decoding the 16 packed bytes with a forced version reduces to the
word-level branch of `Key.unpack`. -/
theorem unpack_le_some (x y w v : Nat) (hx : x < 4294967296)
    (hy : y < 4294967296) (hw : w < 18446744073709551616) :
    Key.unpack (le4 x ++ le4 y ++ le8 w) (some v) =
      (if v = 1 then
        (version1_id2type (w >>> 32)).map fun t =>
          ⟨x, y, w &&& 0xFFFFFFFF, t, 1⟩
      else
        (mkItemType (w >>> 60)).map fun t =>
          ⟨x, y, w &&& 0x0FFFFFFFFFFFFFFF, t, 2⟩) := by
  unfold le8 le4
  simp only [List.cons_append, List.nil_append]
  simp only [Key.unpack]
  have hxv := rd4v_le4 x
  have hyv := rd4v_le4 y
  rw [Nat.mod_eq_of_lt hx] at hxv
  rw [Nat.mod_eq_of_lt hy] at hyv
  have hwv : rd4v (w % 4294967296 % 256) (w % 4294967296 / 256 % 256)
        (w % 4294967296 / 65536 % 256) (w % 4294967296 / 16777216 % 256) +
      4294967296 * rd4v (w / 4294967296 % 256) (w / 4294967296 / 256 % 256)
        (w / 4294967296 / 65536 % 256) (w / 4294967296 / 16777216 % 256) = w := by
    rw [rd4v_le4 (w % 4294967296), rd4v_le4 (w / 4294967296)]
    omega
  rw [hxv, hyv, hwv]

/-- Decoding the 16 packed bytes with version inference reduces to the
word-level branches of `Key.unpack`, selected by the low 4 bits. -/
theorem unpack_le_none (x y w : Nat) (hx : x < 4294967296)
    (hy : y < 4294967296) (hw : w < 18446744073709551616) :
    Key.unpack (le4 x ++ le4 y ++ le8 w) none =
      (if w &&& 15 = 0 ∨ w &&& 15 = 15 then
        (version1_id2type (w >>> 32)).map fun t =>
          ⟨x, y, w &&& 0xFFFFFFFF, t, 1⟩
      else
        (mkItemType (w >>> 60)).map fun t =>
          ⟨x, y, w &&& 0x0FFFFFFFFFFFFFFF, t, 2⟩) := by
  unfold le8 le4
  simp only [List.cons_append, List.nil_append]
  simp only [Key.unpack]
  have hxv := rd4v_le4 x
  have hyv := rd4v_le4 y
  rw [Nat.mod_eq_of_lt hx] at hxv
  rw [Nat.mod_eq_of_lt hy] at hyv
  have hwv : rd4v (w % 4294967296 % 256) (w % 4294967296 / 256 % 256)
        (w % 4294967296 / 65536 % 256) (w % 4294967296 / 16777216 % 256) +
      4294967296 * rd4v (w / 4294967296 % 256) (w / 4294967296 / 256 % 256)
        (w / 4294967296 / 65536 % 256) (w / 4294967296 / 16777216 % 256) = w := by
    rw [rd4v_le4 (w % 4294967296), rd4v_le4 (w / 4294967296)]
    omega
  rw [hxv, hyv, hwv]
  by_cases hc : w &&& 15 = 0 ∨ w &&& 15 = 15
  · rw [if_pos hc, if_pos hc]
    rfl
  · rw [if_neg hc, if_neg hc]
    rw [if_neg (by omega)]

end ReiserRescue

namespace ReiserRescue

/-- The packed word of a valid version-1 key fits in 64 bits. -/
theorem packWord_lt_v1 (k : KeyV) (hv : k.version = 1) (ho : k.offset < 4294967296) :
    k.packWord < 18446744073709551616 := by
  rw [packWord_v1 k hv ho]
  have := type2id_lt k.type
  omega

/-- The packed word of a valid version-2 key fits in 64 bits. -/
theorem packWord_lt_v2 (k : KeyV) (hv : k.version = 2)
    (ho : k.offset < 1152921504606846976) :
    k.packWord < 18446744073709551616 := by
  rw [packWord_v2 k hv ho]
  have := itemTypeValue_le k.type
  omega

/-- The version-1 decoding branch applied to the packed word of a valid
version-1 key recovers the key. -/
theorem unpack_branch_v1 (k : KeyV) (hv : k.version = 1)
    (ho : k.offset < 4294967296) :
    ((version1_id2type (k.packWord >>> 32)).map fun t =>
        (⟨k.dirid, k.objid, k.packWord &&& 0xFFFFFFFF, t, 1⟩ : KeyV)) = some k := by
  rw [shr32, and_mask32, packWord_v1 k hv ho]
  have h1 : (k.offset + version1_type2id k.type * 4294967296) / 4294967296 =
      version1_type2id k.type := by omega
  have h2 : (k.offset + version1_type2id k.type * 4294967296) % 4294967296 =
      k.offset := by omega
  rw [h1, h2, id2type_type2id]
  simp only [Option.map_some', Option.some_inj]
  rw [← hv]

/-- The version-2 decoding branch applied to the packed word of a valid
version-2 key recovers the key. -/
theorem unpack_branch_v2 (k : KeyV) (hv : k.version = 2)
    (ho : k.offset < 1152921504606846976) :
    ((mkItemType (k.packWord >>> 60)).map fun t =>
        (⟨k.dirid, k.objid, k.packWord &&& 0x0FFFFFFFFFFFFFFF, t, 2⟩ : KeyV)) =
      some k := by
  rw [shr60, and_mask60, packWord_v2 k hv ho]
  have hval := itemTypeValue_le k.type
  have h1 : (k.offset + k.type.value * 1152921504606846976) / 1152921504606846976 =
      k.type.value := by omega
  have h2 : (k.offset + k.type.value * 1152921504606846976) % 1152921504606846976 =
      k.offset := by omega
  rw [h1, h2, mkItemType_value]
  simp only [Option.map_some', Option.some_inj]
  rw [← hv]

/-! ## C5 -/

/-- C5: for every valid key (version 1 with a 32-bit offset, or version 2
with a 60-bit offset), unpacking the 16 bytes produced by `Key.pack` with
the version forced to the key's own version returns the key unchanged. -/
theorem c5_key_roundtrip (k : KeyV) (h : KeyValid k) :
    Key.unpack (KeyV.pack k) (some k.version) = some k := by
  obtain ⟨hd, hobj, hv⟩ := h
  unfold KeyV.pack
  rcases hv with ⟨hv1, ho⟩ | ⟨hv2, ho⟩
  · rw [unpack_le_some _ _ _ _ hd hobj (packWord_lt_v1 k hv1 ho)]
    rw [hv1, if_pos rfl]
    exact unpack_branch_v1 k hv1 ho
  · rw [unpack_le_some _ _ _ _ hd hobj (packWord_lt_v2 k hv2 ho)]
    rw [hv2, if_neg (by omega)]
    exact unpack_branch_v2 k hv2 ho

/-- C5 witness: the round trip evaluated at the concrete version-1 key
`(3, 4, 5, DIRECT)`. -/
theorem c5_key_roundtrip_witness :
    Key.unpack (KeyV.pack ⟨3, 4, 5, .DIRECT, 1⟩)
        (some (KeyV.mk 3 4 5 .DIRECT 1).version) =
      some ⟨3, 4, 5, .DIRECT, 1⟩ :=
  c5_key_roundtrip ⟨3, 4, 5, .DIRECT, 1⟩
    ⟨by norm_num, by norm_num, Or.inl ⟨rfl, by norm_num⟩⟩

/-! ## C9 -/

/-- C9: unpacking with automatic version inference recovers a valid key
exactly when the inference picks the key's own version — for a version-1
key when the low 4 bits of the offset are 0 or 15, for a version-2 key when
they are neither; in every other case the other version is selected and the
decode either fails or yields a key with the other version tag. -/
theorem c9_key_version_inference (k : KeyV) (h : KeyValid k) :
    (Key.unpack (KeyV.pack k) none = some k ↔
      ((k.version = 1 ∧ (k.offset % 16 = 0 ∨ k.offset % 16 = 15)) ∨
        (k.version = 2 ∧ ¬(k.offset % 16 = 0 ∨ k.offset % 16 = 15)))) := by
  obtain ⟨hd, hobj, hv⟩ := h
  unfold KeyV.pack
  rcases hv with ⟨hv1, ho⟩ | ⟨hv2, ho⟩
  · rw [unpack_le_none _ _ _ hd hobj (packWord_lt_v1 k hv1 ho), and_mask4]
    have hm : k.packWord % 16 = k.offset % 16 := by
      rw [packWord_v1 k hv1 ho]; omega
    rw [hm]
    by_cases hc : k.offset % 16 = 0 ∨ k.offset % 16 = 15
    · rw [if_pos hc]
      constructor
      · intro _
        exact Or.inl ⟨hv1, hc⟩
      · intro _
        exact unpack_branch_v1 k hv1 ho
    · rw [if_neg hc]
      constructor
      · intro hEq
        exfalso
        cases hmk : mkItemType (k.packWord >>> 60) with
        | none => rw [hmk] at hEq; cases hEq
        | some t =>
            rw [hmk] at hEq
            simp only [Option.map_some', Option.some_inj] at hEq
            have hver : k.version = 2 := by rw [← hEq]
            omega
      · intro hr
        exfalso
        rcases hr with ⟨_, hc'⟩ | ⟨hv2', _⟩
        · exact hc hc'
        · omega
  · rw [unpack_le_none _ _ _ hd hobj (packWord_lt_v2 k hv2 ho), and_mask4]
    have hm : k.packWord % 16 = k.offset % 16 := by
      rw [packWord_v2 k hv2 ho]; omega
    rw [hm]
    by_cases hc : k.offset % 16 = 0 ∨ k.offset % 16 = 15
    · rw [if_pos hc]
      constructor
      · intro hEq
        exfalso
        cases hmk : version1_id2type (k.packWord >>> 32) with
        | none => rw [hmk] at hEq; cases hEq
        | some t =>
            rw [hmk] at hEq
            simp only [Option.map_some', Option.some_inj] at hEq
            have hver : k.version = 1 := by rw [← hEq]
            omega
      · intro hr
        exfalso
        rcases hr with ⟨hv1', _⟩ | ⟨_, hc'⟩
        · omega
        · exact hc' hc
    · rw [if_neg hc]
      constructor
      · intro _
        exact Or.inr ⟨hv2, hc⟩
      · intro _
        exact unpack_branch_v2 k hv2 ho

/-- C9 witness: the inference criterion evaluated at the concrete version-2
key `(1, 2, 3, DIRECT)`, whose offset has low 4 bits equal to 3. -/
theorem c9_key_version_inference_witness :
    Key.unpack (KeyV.pack ⟨1, 2, 3, .DIRECT, 2⟩) none = some ⟨1, 2, 3, .DIRECT, 2⟩ ↔
      (((KeyV.mk 1 2 3 .DIRECT 2).version = 1 ∧
          ((KeyV.mk 1 2 3 .DIRECT 2).offset % 16 = 0 ∨
            (KeyV.mk 1 2 3 .DIRECT 2).offset % 16 = 15)) ∨
        ((KeyV.mk 1 2 3 .DIRECT 2).version = 2 ∧
          ¬((KeyV.mk 1 2 3 .DIRECT 2).offset % 16 = 0 ∨
            (KeyV.mk 1 2 3 .DIRECT 2).offset % 16 = 15))) :=
  c9_key_version_inference ⟨1, 2, 3, .DIRECT, 2⟩
    ⟨by norm_num, by norm_num, Or.inr ⟨rfl, by norm_num⟩⟩

end ReiserRescue

namespace ReiserRescue

/-- Every entry of a chained map starts at or after the anchor. -/
theorem chained_le_start :
    ∀ (s : Nat) (l : List MapEntry), Chained s l → ∀ e ∈ l, s ≤ e.start := by
  intro s l
  induction l generalizing s with
  | nil => intro _ e he; cases he
  | cons a rest ih =>
      intro h e he
      obtain ⟨ha, hsz, hrest⟩ := h
      rcases List.mem_cons.mp he with he | he
      · subst he; omega
      · have := ih (s + a.size) hrest e he
        omega

/-- The end of a chained map lies at or after its anchor. -/
theorem chained_le_chainEnd :
    ∀ (s : Nat) (l : List MapEntry), Chained s l → s ≤ chainEnd s l := by
  intro s l
  induction l generalizing s with
  | nil => intro _; exact Nat.le_refl s
  | cons a rest ih =>
      intro h
      obtain ⟨ha, hsz, hrest⟩ := h
      have := ih (s + a.size) hrest
      simp only [chainEnd]
      rw [ha]
      omega

/-- Dropping the head shifts `rmPrev` by one once the index is positive. -/
theorem rmPrev_cons (e : MapEntry) (l : List MapEntry) (p j : Nat) (hj : 1 ≤ j) :
    rmPrev (e :: l) p (j + 1) = rmPrev l p j := by
  obtain ⟨j', rfl⟩ : ∃ j', j = j' + 1 := ⟨j - 1, by omega⟩
  unfold rmPrev
  rw [if_neg (by omega), if_neg (by omega)]
  simp only [Nat.add_sub_cancel, List.get?_cons_succ]

/-- Lookup at the exact start of the first entry returns its status. -/
theorem rmLookupAt_head_eq (a : MapEntry) (rest : List MapEntry) (p : Nat)
    (hp : a.start = p) : rmLookupAt (a :: rest) p = some a.status := by
  simp only [rmLookupAt, bisectLeft]
  rw [if_neg (show ¬a.start < p by omega)]
  simp only [List.get?_cons_zero]
  rw [if_pos hp]

/-- Lookup on a singleton whose entry starts strictly before the position
reduces to the covering check of that entry. -/
theorem rmLookupAt_one (e : MapEntry) (p : Nat) (he : e.start < p) :
    rmLookupAt [e] p =
      if e.start ≤ p ∧ p < e.start + e.size then some e.status else none := by
  simp only [rmLookupAt, bisectLeft]
  rw [if_pos he]
  simp only [List.get?_cons_succ, List.get?_nil]
  unfold rmPrev
  rw [if_neg (by omega)]
  simp only [Nat.add_sub_cancel, List.get?_cons_zero]

/-- Lookup with the second entry starting past the position reduces to the
covering check of the first entry. -/
theorem rmLookupAt_two_head_gt (e r : MapEntry) (t : List MapEntry) (p : Nat)
    (he : e.start < p) (hr : p < r.start) :
    rmLookupAt (e :: r :: t) p =
      if e.start ≤ p ∧ p < e.start + e.size then some e.status else none := by
  simp only [rmLookupAt, bisectLeft]
  rw [if_pos he, if_neg (show ¬r.start < p by omega)]
  simp only [Nat.zero_add, List.get?_cons_succ, List.get?_cons_zero]
  rw [if_neg (show ¬r.start = p by omega)]
  unfold rmPrev
  rw [if_neg (by omega)]
  simp only [Nat.sub_self, List.get?_cons_zero]

/-- Lookup with the second entry starting exactly at the position returns
the second entry's status. -/
theorem rmLookupAt_two_head_eq (e r : MapEntry) (t : List MapEntry) (p : Nat)
    (he : e.start < p) (hr : r.start = p) :
    rmLookupAt (e :: r :: t) p = some r.status := by
  simp only [rmLookupAt, bisectLeft]
  rw [if_pos he, if_neg (show ¬r.start < p by omega)]
  simp only [Nat.zero_add, List.get?_cons_succ, List.get?_cons_zero]
  rw [if_pos hr]

/-- Lookup skips a head entry when even the second entry starts before the
position. -/
theorem rmLookupAt_two_head_lt (e r : MapEntry) (t : List MapEntry) (p : Nat)
    (he : e.start < p) (hr : r.start < p) :
    rmLookupAt (e :: r :: t) p = rmLookupAt (r :: t) p := by
  have hj : 1 ≤ bisectLeft (r :: t) p := by
    simp only [bisectLeft]
    rw [if_pos hr]
    omega
  have hb : bisectLeft (e :: r :: t) p = bisectLeft (r :: t) p + 1 := by
    conv_lhs => rw [bisectLeft]
    rw [if_pos he]
  simp only [rmLookupAt]
  rw [hb, List.get?_cons_succ]
  cases hg : (r :: t).get? (bisectLeft (r :: t) p) with
  | some a =>
      show (if a.start = p then some a.status
            else rmPrev (e :: r :: t) p (bisectLeft (r :: t) p + 1)) =
          if a.start = p then some a.status
          else rmPrev (r :: t) p (bisectLeft (r :: t) p)
      by_cases ha : a.start = p
      · rw [if_pos ha, if_pos ha]
      · rw [if_neg ha, if_neg ha]
        exact rmPrev_cons e (r :: t) p _ hj
  | none =>
      show rmPrev (e :: r :: t) p (bisectLeft (r :: t) p + 1) =
          rmPrev (r :: t) p (bisectLeft (r :: t) p)
      exact rmPrev_cons e (r :: t) p _ hj

end ReiserRescue

namespace ReiserRescue

/-- Lookup before the anchor of a chained map fails (the `raise ValueError`
path at insertion point 0). -/
theorem rmLookupAt_before (s : Nat) (l : List MapEntry) (p : Nat)
    (h : Chained s l) (hp : p < s) : rmLookupAt l p = none := by
  cases l with
  | nil => rfl
  | cons a rest =>
      obtain ⟨ha, _, _⟩ := h
      simp only [rmLookupAt, bisectLeft]
      rw [if_neg (show ¬a.start < p by omega)]
      simp only [List.get?_cons_zero]
      rw [if_neg (show ¬a.start = p by omega)]
      unfold rmPrev
      rw [if_pos rfl]

/-- Lookup at or past the end of a chained map fails (the covering assert
on the last entry). -/
theorem rmLookupAt_after :
    ∀ (s : Nat) (l : List MapEntry) (p : Nat), Chained s l → chainEnd s l ≤ p →
      rmLookupAt l p = none := by
  intro s l
  induction l generalizing s with
  | nil => intro p _ _; rfl
  | cons a rest ih =>
      intro p h hp
      obtain ⟨ha, hsz, hrest⟩ := h
      have hend : s + a.size ≤ chainEnd s (a :: rest) := by
        simp only [chainEnd]
        rw [ha]
        exact chained_le_chainEnd (s + a.size) rest hrest
      have he : a.start < p := by omega
      cases rest with
      | nil =>
          rw [rmLookupAt_one a p he]
          simp only [chainEnd] at hp
          rw [if_neg (by omega)]
      | cons r t =>
          obtain ⟨hr, hrsz, ht⟩ := hrest
          have ht' : Chained (r.start + r.size) t := by rw [hr]; exact ht
          simp only [chainEnd] at hp
          have hend2 := chained_le_chainEnd (r.start + r.size) t ht'
          have hrp : r.start < p := by omega
          rw [rmLookupAt_two_head_lt a r t p he hrp]
          exact ih (s + a.size) p ⟨hr, hrsz, ht⟩ (by simp only [chainEnd]; omega)

/-- Lookup inside a chained map returns the status of the covering entry. -/
theorem rmLookupAt_cover :
    ∀ (s : Nat) (l : List MapEntry) (p : Nat) (e : MapEntry),
      Chained s l → e ∈ l → e.start ≤ p → p < e.start + e.size →
      rmLookupAt l p = some e.status := by
  intro s l
  induction l generalizing s with
  | nil => intro p e _ he; cases he
  | cons a rest ih =>
      intro p e h hmem hle hlt
      obtain ⟨ha, hsz, hrest⟩ := h
      rcases List.mem_cons.mp hmem with heq | hmem'
      · subst heq
        by_cases hp : e.start = p
        · exact rmLookupAt_head_eq e rest p hp
        · have he' : e.start < p := by omega
          cases rest with
          | nil =>
              rw [rmLookupAt_one e p he']
              rw [if_pos ⟨hle, hlt⟩]
          | cons r t =>
              obtain ⟨hr, hrsz, ht⟩ := hrest
              have hrp : p < r.start := by omega
              rw [rmLookupAt_two_head_gt e r t p he' hrp]
              rw [if_pos ⟨hle, hlt⟩]
      · have hestart : s + a.size ≤ e.start :=
          chained_le_start (s + a.size) rest hrest e hmem'
        have he' : a.start < p := by omega
        cases rest with
        | nil => cases hmem'
        | cons r t =>
            obtain ⟨hr, hrsz, ht⟩ := hrest
            have ht' : Chained (r.start + r.size) t := by rw [hr]; exact ht
            have hrle : r.start ≤ e.start := by
              rcases List.mem_cons.mp hmem' with h1 | h1
              · rw [h1]
              · have := chained_le_start (r.start + r.size) t ht' e h1
                omega
            by_cases hrp : r.start = p
            · have herq : e = r := by
                rcases List.mem_cons.mp hmem' with h1 | h1
                · exact h1
                · exfalso
                  have := chained_le_start (r.start + r.size) t ht' e h1
                  omega
              rw [rmLookupAt_two_head_eq a r t p he' hrp, herq]
            · have hrlt : r.start < p := by omega
              rw [rmLookupAt_two_head_lt a r t p he' hrlt]
              exact ih (s + a.size) p e ⟨hr, hrsz, ht⟩ hmem' hle hlt

/-- C6: on a rescue map satisfying the sorted/no-gap/no-overlap invariant,
`RescueMap.__getitem__` fails both before the first entry and at or past
the end of the last entry, and returns the covering entry's status for
every position inside the map (the stored offset is added to the position
first). -/
theorem c6_rescue_lookup (s : Nat) (l : List MapEntry) (offset pos : Nat)
    (h : Chained s l) :
    (pos + offset < s → rmLookup l offset pos = none) ∧
    (chainEnd s l ≤ pos + offset → rmLookup l offset pos = none) ∧
    (∀ e ∈ l, e.start ≤ pos + offset → pos + offset < e.start + e.size →
        rmLookup l offset pos = some e.status) :=
  ⟨fun hp => rmLookupAt_before s l (pos + offset) h hp,
    fun hp => rmLookupAt_after s l (pos + offset) h hp,
    fun e he h1 h2 => rmLookupAt_cover s l (pos + offset) e h he h1 h2⟩

/-- C6 witness: the three clauses evaluated on the concrete chained map
`[(5, 3, FINISHED), (8, 2, BAD)]` with offset 1: position 4 is before the
first entry, position 10 is at the end of the last entry, and position 9 is
covered by the BAD entry. -/
theorem c6_rescue_lookup_witness :
    rmLookup [⟨5, 3, .FINISHED⟩, ⟨8, 2, .BAD⟩] 1 3 = none ∧
    rmLookup [⟨5, 3, .FINISHED⟩, ⟨8, 2, .BAD⟩] 1 9 = none ∧
    rmLookup [⟨5, 3, .FINISHED⟩, ⟨8, 2, .BAD⟩] 1 8 = some .BAD :=
  ⟨(c6_rescue_lookup 5 [⟨5, 3, .FINISHED⟩, ⟨8, 2, .BAD⟩] 1 3
        (by simp [Chained])).1 (by norm_num),
    (c6_rescue_lookup 5 [⟨5, 3, .FINISHED⟩, ⟨8, 2, .BAD⟩] 1 9
        (by simp [Chained])).2.1 (by decide),
    (c6_rescue_lookup 5 [⟨5, 3, .FINISHED⟩, ⟨8, 2, .BAD⟩] 1 8
        (by simp [Chained])).2.2 ⟨8, 2, .BAD⟩ (by decide) (by decide) (by decide)⟩

end ReiserRescue

namespace ReiserRescue

/-- The heap tuple order is reflexive. -/
theorem pairLeB_refl (a : Nat × Int) : pairLeB a a = true := by
  simp [pairLeB]

/-- The heap tuple order is transitive. -/
theorem pairLeB_trans (a b c : Nat × Int) (h1 : pairLeB a b = true)
    (h2 : pairLeB b c = true) : pairLeB a c = true := by
  simp only [pairLeB, Bool.or_eq_true, Bool.and_eq_true, decide_eq_true_eq] at *
  omega

/-- The smaller tuple has the smaller block number. -/
theorem pairLeB_fst (a b : Nat × Int) (h : pairLeB a b = true) : a.1 ≤ b.1 := by
  simp only [pairLeB, Bool.or_eq_true, Bool.and_eq_true, decide_eq_true_eq] at h
  omega

/-- The heap tuple order is total. -/
theorem pairLeB_total (a b : Nat × Int) (h : ¬pairLeB a b = true) :
    pairLeB b a = true := by
  simp only [pairLeB, Bool.or_eq_true, Bool.and_eq_true, decide_eq_true_eq] at *
  omega

/-- Unfolding `heapMin` on a cons when the tail has no minimum. -/
theorem heapMin_cons_none (x : Nat × Int) (xs : List (Nat × Int))
    (hm : heapMin xs = none) : heapMin (x :: xs) = some x := by
  unfold heapMin
  rw [hm]

/-- Unfolding `heapMin` on a cons when the tail has a minimum. -/
theorem heapMin_cons_some (x m : Nat × Int) (xs : List (Nat × Int))
    (hm : heapMin xs = some m) :
    heapMin (x :: xs) = some (if pairLeB x m then x else m) := by
  unfold heapMin
  rw [hm]

/-- The minimum returned by `heapMin` is an element of the heap. -/
theorem heapMin_mem : ∀ (l : List (Nat × Int)) (m : Nat × Int),
    heapMin l = some m → m ∈ l := by
  intro l
  induction l with
  | nil => intro m h; cases h
  | cons x xs ih =>
      intro m h
      cases hm : heapMin xs with
      | none =>
          rw [heapMin_cons_none x xs hm] at h
          obtain rfl := Option.some_inj.mp h
          exact List.mem_cons_self x xs
      | some m' =>
          rw [heapMin_cons_some x m' xs hm] at h
          obtain rfl := Option.some_inj.mp h
          by_cases hle : pairLeB x m' = true
          · rw [if_pos hle]
            exact List.mem_cons_self x xs
          · rw [if_neg hle]
            exact List.mem_cons_of_mem x (ih m' hm)

/-- The minimum returned by `heapMin` is below every heap element. -/
theorem heapMin_le : ∀ (l : List (Nat × Int)) (m : Nat × Int),
    heapMin l = some m → ∀ x ∈ l, pairLeB m x = true := by
  intro l
  induction l with
  | nil => intro m h; cases h
  | cons y xs ih =>
      intro m h x hx
      cases hm : heapMin xs with
      | none =>
          rw [heapMin_cons_none y xs hm] at h
          obtain rfl := Option.some_inj.mp h
          rcases List.mem_cons.mp hx with hx | hx
          · rw [hx]
            exact pairLeB_refl y
          · cases xs with
            | nil => cases hx
            | cons z zs =>
                exfalso
                cases hz : heapMin zs with
                | none => rw [heapMin_cons_none z zs hz] at hm; cases hm
                | some w => rw [heapMin_cons_some z w zs hz] at hm; cases hm
      | some m' =>
          rw [heapMin_cons_some y m' xs hm] at h
          obtain rfl := Option.some_inj.mp h
          rcases List.mem_cons.mp hx with hx | hx
          · subst hx
            by_cases hle : pairLeB x m' = true
            · rw [if_pos hle]
              exact pairLeB_refl x
            · rw [if_neg hle]
              exact pairLeB_total x m' hle
          · by_cases hle : pairLeB y m' = true
            · rw [if_pos hle]
              exact pairLeB_trans y m' x hle (ih m' hm x hx)
            · rw [if_neg hle]
              exact ih m' hm x hx

/-- What `heapPop` returns: the minimum tuple, whose block number bounds
every remaining element from below. -/
theorem heapPop_spec (l : List (Nat × Int)) (m : Nat × Int)
    (rest : List (Nat × Int)) (h : heapPop l = some (m, rest)) :
    m ∈ l ∧ ∀ x ∈ rest, m.1 ≤ x.1 := by
  cases hm : heapMin l with
  | none =>
      have hnone : heapPop l = none := by unfold heapPop; rw [hm]
      rw [hnone] at h
      cases h
  | some m' =>
      have heq : heapPop l = some (m', l.erase m') := by unfold heapPop; rw [hm]
      rw [heq] at h
      simp only [Option.some_inj, Prod.mk.injEq] at h
      obtain ⟨h1, h2⟩ := h
      rw [h1] at hm
      rw [h1] at h2
      refine ⟨heapMin_mem l m hm, fun x hx => ?_⟩
      rw [← h2] at hx
      have hxl : x ∈ l := List.mem_of_mem_erase hx
      exact pairLeB_fst m x (heapMin_le l m hm x hxl)

/-- The routing loop partitions the children: pointers below the popped
block are appended to the next-pass list, the rest are pushed onto the
current heap. -/
theorem procChildren_eq (b : Nat) (lvl : Int) :
    ∀ (cs : List Nat) (heap np : List (Nat × Int)),
      procChildren b lvl cs heap np =
        (heap ++ (cs.filter fun c => decide (b ≤ c)).map fun c => (c, lvl),
          np ++ (cs.filter fun c => decide (c < b)).map fun c => (c, lvl)) := by
  intro cs
  induction cs with
  | nil => intro heap np; simp [procChildren]
  | cons c rest ih =>
      intro heap np
      by_cases hc : c < b
      · rw [List.filter_cons_of_neg (by simp only [decide_eq_true_eq]; omega),
          List.filter_cons_of_pos (by simp only [decide_eq_true_eq]; omega)]
        simp only [procChildren, if_pos hc, ih]
        simp
      · rw [List.filter_cons_of_pos (by simp only [decide_eq_true_eq]; omega),
          List.filter_cons_of_neg (by simp only [decide_eq_true_eq]; omega)]
        simp only [procChildren, if_neg hc, ih]
        simp

/-- One pass iteration preserves the heap lower bound and extends the
popped trace monotonically. -/
theorem passStep_inv (readN : Nat → Option NodeM) (limit : Int)
    (st st' : PassState) (hstep : passStep readN limit st = some st')
    (hhead : ∀ p, st.popped.head? = some p → ∀ x ∈ st.heap, p ≤ x.1)
    (hchain : List.Chain' (fun a b => b ≤ a) st.popped) :
    (∀ p, st'.popped.head? = some p → ∀ x ∈ st'.heap, p ≤ x.1) ∧
      List.Chain' (fun a b => b ≤ a) st'.popped := by
  cases hpop : heapPop st.heap with
  | none =>
      have hnone : passStep readN limit st = none := by unfold passStep; rw [hpop]
      rw [hnone] at hstep
      cases hstep
  | some pr =>
      obtain ⟨⟨b, lv⟩, rest⟩ := pr
      obtain ⟨hmem, hrest⟩ := heapPop_spec st.heap (b, lv) rest hpop
      have hchain' : List.Chain' (fun a b => b ≤ a) (b :: st.popped) := by
        cases hpo : st.popped with
        | nil => simp
        | cons p t =>
            rw [List.chain'_cons]
            refine ⟨hhead p (by rw [hpo]; rfl) (b, lv) hmem, ?_⟩
            rw [← hpo]
            exact hchain
      have hred : passStep readN limit st =
          match readN b with
          | none => some ⟨rest, st.nextPass, b :: st.popped⟩
          | some node =>
              if node.level ≤ limit then some ⟨rest, st.nextPass, b :: st.popped⟩
              else if 1 < node.level then
                some ⟨(procChildren b (node.level - 1) node.ptrs rest st.nextPass).1,
                  (procChildren b (node.level - 1) node.ptrs rest st.nextPass).2,
                  b :: st.popped⟩
              else some ⟨rest, st.nextPass, b :: st.popped⟩ := by
        unfold passStep
        rw [hpop]
      rw [hred] at hstep
      cases hread : readN b with
      | none =>
          rw [hread] at hstep
          replace hstep : some (PassState.mk rest st.nextPass (b :: st.popped)) =
              some st' := hstep
          obtain rfl := (Option.some_inj.mp hstep).symm
          exact ⟨fun p hp x hx => by
            simp only [List.head?_cons, Option.some_inj] at hp
            subst hp
            exact hrest x hx, hchain'⟩
      | some node =>
          rw [hread] at hstep
          replace hstep :
              (if node.level ≤ limit then
                some (PassState.mk rest st.nextPass (b :: st.popped))
              else if 1 < node.level then
                some (PassState.mk
                  (procChildren b (node.level - 1) node.ptrs rest st.nextPass).1
                  (procChildren b (node.level - 1) node.ptrs rest st.nextPass).2
                  (b :: st.popped))
              else some (PassState.mk rest st.nextPass (b :: st.popped))) =
                some st' := hstep
          by_cases hlim : node.level ≤ limit
          · rw [if_pos hlim] at hstep
            obtain rfl := (Option.some_inj.mp hstep).symm
            exact ⟨fun p hp x hx => by
              simp only [List.head?_cons, Option.some_inj] at hp
              subst hp
              exact hrest x hx, hchain'⟩
          · rw [if_neg hlim] at hstep
            by_cases hlv : 1 < node.level
            · rw [if_pos hlv] at hstep
              obtain rfl := (Option.some_inj.mp hstep).symm
              refine ⟨fun p hp x hx => ?_, hchain'⟩
              simp only [List.head?_cons, Option.some_inj] at hp
              subst hp
              simp only [procChildren_eq] at hx
              simp only [List.mem_append, List.mem_map, List.mem_filter,
                decide_eq_true_eq] at hx
              rcases hx with hx | ⟨c, ⟨_, hcb⟩, rfl⟩
              · exact hrest x hx
              · exact hcb
            · rw [if_neg hlv] at hstep
              obtain rfl := (Option.some_inj.mp hstep).symm
              exact ⟨fun p hp x hx => by
                simp only [List.head?_cons, Option.some_inj] at hp
                subst hp
                exact hrest x hx, hchain'⟩

/-- Running a pass preserves the invariant. -/
theorem runPass_inv (readN : Nat → Option NodeM) (limit : Int) :
    ∀ (fuel : Nat) (st : PassState),
      (∀ p, st.popped.head? = some p → ∀ x ∈ st.heap, p ≤ x.1) →
      List.Chain' (fun a b => b ≤ a) st.popped →
      List.Chain' (fun a b => b ≤ a) (runPass readN limit fuel st).popped := by
  intro fuel
  induction fuel with
  | zero => intro st _ hchain; exact hchain
  | succ n ih =>
      intro st hhead hchain
      unfold runPass
      cases hstep : passStep readN limit st with
      | none => exact hchain
      | some st' =>
          obtain ⟨hhead', hchain'⟩ := passStep_inv readN limit st st' hstep hhead hchain
          exact ih st' hhead' hchain'

/-- C8: in the two-heap tree pass of `_findTree` and `iter_leafs`, the
sequence of blocks popped and read within one pass is monotonically
nondecreasing (the trace is stored most-recent-first, so the chain runs
downward), and the routing loop sends exactly the child pointers at or
above the popped block onto the current heap and exactly those below it
onto the next-pass list. -/
theorem c8_pass_monotone (readN : Nat → Option NodeM) (limit : Int)
    (fuel : Nat) (h0 : List (Nat × Int)) :
    List.Chain' (fun a b => b ≤ a)
        (runPass readN limit fuel ⟨h0, [], []⟩).popped ∧
      ∀ (b : Nat) (lvl : Int) (cs : List Nat) (heap np : List (Nat × Int)),
        procChildren b lvl cs heap np =
          (heap ++ (cs.filter fun c => decide (b ≤ c)).map fun c => (c, lvl),
            np ++ (cs.filter fun c => decide (c < b)).map fun c => (c, lvl)) :=
  ⟨runPass_inv readN limit fuel ⟨h0, [], []⟩ (fun p hp => by cases hp) (by simp),
    fun b lvl => procChildren_eq b lvl⟩

end ReiserRescue
